import Mathlib

/-! Verification of the SciRag vector indexing and retrieval engine.

This file gives a shallow embedding of the core of the repository: the
SQLite-backed chunk store (src/rag/vector_store.py), the resumable batch
indexer (src/rag/indexer.py) and the cosine-similarity search.  The store
is modelled as a list of rows in insertion order (the SQLite table, whose
autoincrement rowid is the position in the list); the stored embedding
payloads are rationals (their numeric values play no role in the indexing
claims); the search scores are computed in a model of IEEE 754 binary32
arithmetic over the reals, since the code builds its arrays with
dtype=np.float32 and stays in that precision; and each call to the
external embedding provider is modelled by an oracle that may fail on
any given call of the sequence.
-/

namespace SciRag

/-- Chunk metadata, mirroring the dict built by build_metadata
(src/rag/indexer.py lines 131-140). -/
structure Meta where
  source_path : String
  chunk_index : ℕ
  source_name : String
  page : ℤ

/-- Model of os.path.basename as used by build_metadata: the part of the
path after the last slash. -/
def basename (p : String) : String :=
  (p.splitOn "/").getLastD ""

/-- rag.indexer.build_metadata (indexer.py lines 131-140). -/
def build_metadata (path : String) (chunk_idx : ℕ) (page_index : ℤ) : Meta :=
  ⟨path, chunk_idx, basename path, page_index⟩

/-- An embedding vector as stored by the indexer (a JSON list of
numbers, modelled with rational entries). -/
abbrev Emb : Type := List ℚ

/-- One row of the documents table (vector_store.py lines 19-29).  The
autoincrement id column is the row's position in the table list. -/
structure Row where
  doc_id : String
  chunk_id : ℕ
  text : String
  meta : Meta
  emb : Emb

/-- The rows built by VectorStore.add_many (vector_store.py lines 51-61):
enumerate over the zip of the three input lists; the chunk_id of a row is
its position in this call's batch. -/
def mkRows (doc_id : String) (chunks : List String) (metas : List Meta)
    (embs : List Emb) : List Row :=
  (List.enum (chunks.zip (metas.zip embs))).map
    (fun p => ⟨doc_id, p.1, p.2.1, p.2.2.1, p.2.2.2⟩)

/-- VectorStore.add_many (vector_store.py lines 40-70): asserts that the
three lists have equal length, then appends the built rows to the table
in one transaction.  The Except value models the Python assert: on error
nothing is persisted. -/
def add_many (db : List Row) (doc_id : String) (chunks : List String)
    (metas : List Meta) (embs : List Emb) : Except String (List Row) :=
  if chunks.length = metas.length ∧ metas.length = embs.length then
    Except.ok (db ++ mkRows doc_id chunks metas embs)
  else Except.error "AssertionError"

/-- The table contents after an add_many call returns or raises: when the
length assertion fires the table is unchanged. -/
def runAddMany (db : List Row) (doc_id : String) (chunks : List String)
    (metas : List Meta) (embs : List Emb) : List Row :=
  match add_many db doc_id chunks metas embs with
  | Except.ok db2 => db2
  | Except.error _ => db

/-- The rows stored for one document, in insertion order
(SELECT ... WHERE doc_id = ?). -/
def docRows (db : List Row) (doc : String) : List Row :=
  db.filter (fun r => r.doc_id = doc)

/-- rag.indexer._get_indexed_count (indexer.py lines 143-156): how many
rows are already stored for the given doc_id. -/
def get_indexed_count (db : List Row) (doc : String) : ℕ :=
  (docRows db doc).length

/-- The indexer's batch size (indexer.py line 206). -/
def BATCH : ℕ := 64

/-- The batch loop of index_pdfs (indexer.py lines 206-230): starting at
chunk offset i, embed and persist successive BATCH-sized slices of the
remaining chunks; on an embedding failure stop and keep what is already
stored.  The first argument of the oracle embed is the offset of the
call's batch: it lets a run model an external provider that fails on a
given call of the sequence. -/
def indexLoop (embed : ℕ → List String → Option (List Emb)) (doc : String)
    (chunks : List String) (metas : List Meta) (total i : ℕ)
    (db : List Row) : List Row :=
  if h : i < total then
    match embed i ((chunks.drop i).take BATCH) with
    | none => db
    | some embs =>
      match add_many db doc ((chunks.drop i).take BATCH)
          ((metas.drop i).take BATCH) embs with
      | Except.error _ => db
      | Except.ok db2 => indexLoop embed doc chunks metas total (i + BATCH) db2
  else db
termination_by total - i
decreasing_by simp only [BATCH]; omega

/-- The per-document body of index_pdfs (indexer.py lines 193-232), from
the resume check on: with chunks and metadatas already computed, skip the
document when the stored row count is at least the total chunk count,
otherwise resume the batch loop at the stored count. -/
def index_document (embed : ℕ → List String → Option (List Emb))
    (db : List Row) (doc : String) (chunks : List String)
    (metas : List Meta) : List Row :=
  if chunks.length ≤ get_indexed_count db doc then db
  else indexLoop embed doc chunks metas chunks.length (get_indexed_count db doc) db

/-- The texts of the rows built by one add_many call are the call's
chunks, in order, when the three input lists have equal lengths. -/
theorem mkRows_map_text (doc : String) (chunks : List String) (metas : List Meta)
    (embs : List Emb) (h1 : metas.length = chunks.length)
    (h2 : embs.length = chunks.length) :
    (mkRows doc chunks metas embs).map Row.text = chunks := by
  have h3 : chunks.length ≤ (metas.zip embs).length := by
    rw [List.length_zip]; omega
  calc (mkRows doc chunks metas embs).map Row.text
      = ((chunks.zip (metas.zip embs)).enum.map Prod.snd).map Prod.fst := by
        unfold mkRows; rw [List.map_map, List.map_map]; rfl
    _ = (chunks.zip (metas.zip embs)).map Prod.fst := by
        rw [List.enum_eq_enumFrom, List.enumFrom_map_snd]
    _ = chunks := List.map_fst_zip _ _ h3

/-- The chunk_id column of the rows built by one add_many call: the
positions 0, 1, ... within the call's batch. -/
theorem mkRows_map_chunk_id (doc : String) (chunks : List String)
    (metas : List Meta) (embs : List Emb) :
    (mkRows doc chunks metas embs).map Row.chunk_id
      = List.range (chunks.zip (metas.zip embs)).length := by
  calc (mkRows doc chunks metas embs).map Row.chunk_id
      = (chunks.zip (metas.zip embs)).enum.map Prod.fst := by
        unfold mkRows; rw [List.map_map]; rfl
    _ = List.range' 0 (chunks.zip (metas.zip embs)).length := by
        rw [List.enum_eq_enumFrom, List.enumFrom_map_fst]
    _ = List.range (chunks.zip (metas.zip embs)).length := by
        rw [List.range_eq_range']

/-- add_many succeeds and appends its rows when the lengths agree. -/
theorem add_many_ok (db : List Row) (doc : String) (chunks : List String)
    (metas : List Meta) (embs : List Emb)
    (h1 : chunks.length = metas.length) (h2 : metas.length = embs.length) :
    add_many db doc chunks metas embs
      = Except.ok (db ++ mkRows doc chunks metas embs) := by
  unfold add_many
  rw [if_pos ⟨h1, h2⟩]

/-- Filtering for a doc_id distributes over table append. -/
theorem docRows_append (db1 db2 : List Row) (doc : String) :
    docRows (db1 ++ db2) doc = docRows db1 doc ++ docRows db2 doc := by
  simp [docRows]

/-- Every row built by add_many carries the call's doc_id. -/
theorem docRows_mkRows (doc : String) (chunks : List String)
    (metas : List Meta) (embs : List Emb) :
    docRows (mkRows doc chunks metas embs) doc = mkRows doc chunks metas embs := by
  apply List.filter_eq_self.mpr
  intro r hr
  simp only [mkRows, List.mem_map] at hr
  obtain ⟨p, _, rfl⟩ := hr
  simp

/-- A successful batch loop appends exactly the chunk texts from offset i
on to the document's stored rows (indexer.py lines 206-230 with an
embedding provider that never fails). -/
theorem indexLoop_texts_aux (embed : ℕ → List String → Option (List Emb))
    (doc : String) (chunks : List String) (metas : List Meta)
    (hm : metas.length = chunks.length)
    (hgood : ∀ j ts, ∃ es, embed j ts = some es ∧ es.length = ts.length) :
    ∀ n i db, chunks.length - i ≤ n →
      (docRows (indexLoop embed doc chunks metas chunks.length i db) doc).map Row.text
        = (docRows db doc).map Row.text ++ chunks.drop i := by
  intro n
  induction n with
  | zero =>
    intro i db hn
    rw [indexLoop, dif_neg (by omega), List.drop_eq_nil_of_le (by omega),
      List.append_nil]
  | succ n ih =>
    intro i db hn
    by_cases hi : i < chunks.length
    · rw [indexLoop, dif_pos hi]
      obtain ⟨es, hes, hlen⟩ := hgood i ((chunks.drop i).take BATCH)
      have hb1 : ((chunks.drop i).take BATCH).length
          = ((metas.drop i).take BATCH).length := by
        simp [hm]
      simp only [hes]
      simp only [add_many_ok db doc _ _ es hb1 (hb1.symm.trans hlen.symm)]
      have hB : 0 < BATCH := by simp [BATCH]
      have hle : chunks.length - (i + BATCH) ≤ n := by omega
      rw [ih (i + BATCH) _ hle]
      rw [docRows_append, List.map_append, docRows_mkRows,
        mkRows_map_text _ _ _ _ hb1.symm hlen, List.append_assoc]
      have hd : chunks.drop (i + BATCH) = (chunks.drop i).drop BATCH := by
        rw [List.drop_drop]
      rw [hd, List.take_append_drop]
    · rw [indexLoop, dif_neg hi, List.drop_eq_nil_of_le (by omega), List.append_nil]

/-- Outer form of the successful-loop lemma. -/
theorem indexLoop_texts (embed : ℕ → List String → Option (List Emb))
    (doc : String) (chunks : List String) (metas : List Meta) (i : ℕ)
    (db : List Row) (hm : metas.length = chunks.length)
    (hgood : ∀ j ts, ∃ es, embed j ts = some es ∧ es.length = ts.length) :
    (docRows (indexLoop embed doc chunks metas chunks.length i db) doc).map Row.text
      = (docRows db doc).map Row.text ++ chunks.drop i :=
  indexLoop_texts_aux embed doc chunks metas hm hgood (chunks.length - i) i db
    (Nat.le_refl _)

/-- A batch loop whose embedding oracle succeeds on batches j0..k-1 and
fails on batch k stores exactly the chunks of the successful batches. -/
theorem indexLoop_fail_texts_aux (embed : ℕ → List String → Option (List Emb))
    (doc : String) (chunks : List String) (metas : List Meta)
    (hm : metas.length = chunks.length) (k : ℕ) (E : ℕ → List Emb)
    (hE : ∀ j, j < k →
      embed (BATCH * j) ((chunks.drop (BATCH * j)).take BATCH) = some (E j)
        ∧ (E j).length = ((chunks.drop (BATCH * j)).take BATCH).length)
    (hfail : embed (BATCH * k) ((chunks.drop (BATCH * k)).take BATCH) = none)
    (hk : BATCH * k < chunks.length) :
    ∀ n j0 db, k - j0 ≤ n → j0 ≤ k →
      (docRows (indexLoop embed doc chunks metas chunks.length (BATCH * j0) db) doc).map
          Row.text
        = (docRows db doc).map Row.text
          ++ (chunks.drop (BATCH * j0)).take (BATCH * k - BATCH * j0) := by
  intro n
  induction n with
  | zero =>
    intro j0 db hn hj
    have hj0 : j0 = k := by omega
    subst hj0
    rw [indexLoop, dif_pos hk]
    simp only [hfail]
    rw [Nat.sub_self, List.take_zero, List.append_nil]
  | succ n ih =>
    intro j0 db hn hj
    by_cases hje : j0 = k
    · subst hje
      rw [indexLoop, dif_pos hk]
      simp only [hfail]
      rw [Nat.sub_self, List.take_zero, List.append_nil]
    · have hjlt : j0 < k := by omega
      have hmul : BATCH * j0 ≤ BATCH * k := Nat.mul_le_mul_left _ (by omega)
      have hilt : BATCH * j0 < chunks.length := by omega
      rw [indexLoop, dif_pos hilt]
      obtain ⟨hes, hlen⟩ := hE j0 hjlt
      simp only [hes]
      have hb1 : ((chunks.drop (BATCH * j0)).take BATCH).length
          = ((metas.drop (BATCH * j0)).take BATCH).length := by
        simp [hm]
      simp only [add_many_ok db doc _ _ (E j0) hb1 (hb1.symm.trans hlen.symm)]
      have hstep : BATCH * j0 + BATCH = BATCH * (j0 + 1) := by ring
      rw [hstep, ih (j0 + 1) _ (by omega) (by omega)]
      rw [docRows_append, List.map_append, docRows_mkRows,
        mkRows_map_text _ _ _ _ hb1.symm hlen, List.append_assoc]
      congr 1
      have hd : (chunks.drop (BATCH * j0)).drop BATCH = chunks.drop (BATCH * (j0 + 1)) := by
        rw [List.drop_drop, hstep]
      rw [← hd, ← List.take_add]
      congr 1
      have hmul2 : BATCH * (j0 + 1) ≤ BATCH * k := Nat.mul_le_mul_left _ (by omega)
      have hexp : BATCH * (j0 + 1) = BATCH * j0 + BATCH := by ring
      omega

/-- The resume check: when the stored row count for the document is at
least the freshly computed chunk count, index_document is a no-op. -/
theorem index_document_skip (embed : ℕ → List String → Option (List Emb))
    (db : List Row) (doc : String) (chunks : List String) (metas : List Meta)
    (h : chunks.length ≤ get_indexed_count db doc) :
    index_document embed db doc chunks metas = db := by
  unfold index_document
  rw [if_pos h]

/-- C2: indexing the same unchanged document twice produces exactly the
same final stored state as indexing it once: when the stored count for
the doc_id is at least the freshly computed total, the run skips the
document and writes nothing, and after any successful run a second run
(with any embedding provider) is a no-op. -/
theorem index_pdfs_idempotent (embed1 embed2 : ℕ → List String → Option (List Emb))
    (db : List Row) (doc : String) (chunks : List String) (metas : List Meta)
    (hm : metas.length = chunks.length)
    (hgood : ∀ j ts, ∃ es, embed1 j ts = some es ∧ es.length = ts.length) :
    (chunks.length ≤ get_indexed_count db doc →
      index_document embed1 db doc chunks metas = db)
    ∧ index_document embed2 (index_document embed1 db doc chunks metas) doc chunks metas
      = index_document embed1 db doc chunks metas := by
  refine ⟨index_document_skip embed1 db doc chunks metas, ?_⟩
  by_cases hskip : chunks.length ≤ get_indexed_count db doc
  · rw [index_document_skip embed1 db doc chunks metas hskip,
      index_document_skip embed2 db doc chunks metas hskip]
  · have hrun : index_document embed1 db doc chunks metas
        = indexLoop embed1 doc chunks metas chunks.length (get_indexed_count db doc) db := by
      unfold index_document
      rw [if_neg hskip]
    have htext := indexLoop_texts embed1 doc chunks metas (get_indexed_count db doc) db
      hm hgood
    have hcount : chunks.length ≤ get_indexed_count
        (index_document embed1 db doc chunks metas) doc := by
      rw [hrun]
      have h2 := congrArg List.length htext
      simp only [List.length_append, List.length_map, List.length_drop] at h2
      simp only [get_indexed_count] at h2 ⊢
      omega
    exact index_document_skip embed2 _ doc chunks metas hcount

/-- A total embedding oracle: every call succeeds and returns one
(empty) vector per input text. -/
def embedTriv : ℕ → List String → Option (List Emb) :=
  fun _ ts => some (ts.map (fun _ => []))

/-- C2 witness: a one-chunk document indexed twice from an empty store,
plus the skip case on a store that already holds a row for the doc. -/
theorem index_pdfs_idempotent_witness :
    index_document embedTriv
        (index_document embedTriv [] "a.pdf" ["hello"] [build_metadata "a.pdf" 0 0])
        "a.pdf" ["hello"] [build_metadata "a.pdf" 0 0]
      = index_document embedTriv [] "a.pdf" ["hello"] [build_metadata "a.pdf" 0 0]
    ∧ index_document embedTriv [⟨"a.pdf", 0, "hello", build_metadata "a.pdf" 0 0, []⟩]
        "a.pdf" ["hello"] [build_metadata "a.pdf" 0 0]
      = [⟨"a.pdf", 0, "hello", build_metadata "a.pdf" 0 0, []⟩] := by
  constructor
  · exact (index_pdfs_idempotent embedTriv embedTriv [] "a.pdf" ["hello"]
      [build_metadata "a.pdf" 0 0] rfl
      (fun j ts => ⟨ts.map (fun _ => []), rfl, by simp⟩)).2
  · exact (index_pdfs_idempotent embedTriv embedTriv
      [⟨"a.pdf", 0, "hello", build_metadata "a.pdf" 0 0, []⟩] "a.pdf" ["hello"]
      [build_metadata "a.pdf" 0 0] rfl
      (fun j ts => ⟨ts.map (fun _ => []), rfl, by simp⟩)).1 (by decide)

/-- C3: if the embedding provider fails on batch k of a fresh document,
exactly the chunks of batches 0..k-1 are stored, and a re-run with a
working provider completes the document, storing each chunk exactly
once. -/
theorem index_pdfs_partial_failure (embed1 embed2 : ℕ → List String → Option (List Emb))
    (db0 : List Row) (doc : String) (chunks : List String) (metas : List Meta)
    (k : ℕ) (E : ℕ → List Emb)
    (hm : metas.length = chunks.length)
    (h0 : docRows db0 doc = [])
    (hk : BATCH * k < chunks.length)
    (hE : ∀ j, j < k →
      embed1 (BATCH * j) ((chunks.drop (BATCH * j)).take BATCH) = some (E j)
        ∧ (E j).length = ((chunks.drop (BATCH * j)).take BATCH).length)
    (hfail : embed1 (BATCH * k) ((chunks.drop (BATCH * k)).take BATCH) = none)
    (hgood2 : ∀ j ts, ∃ es, embed2 j ts = some es ∧ es.length = ts.length) :
    (docRows (index_document embed1 db0 doc chunks metas) doc).map Row.text
      = chunks.take (BATCH * k)
    ∧ (docRows (index_document embed2 (index_document embed1 db0 doc chunks metas)
          doc chunks metas) doc).map Row.text
      = chunks := by
  have hc0 : get_indexed_count db0 doc = 0 := by
    simp [get_indexed_count, h0]
  have hrun1 : index_document embed1 db0 doc chunks metas
      = indexLoop embed1 doc chunks metas chunks.length 0 db0 := by
    unfold index_document
    rw [hc0, if_neg (by omega)]
  have h1 : (docRows (index_document embed1 db0 doc chunks metas) doc).map Row.text
      = chunks.take (BATCH * k) := by
    rw [hrun1]
    have hz := indexLoop_fail_texts_aux embed1 doc chunks metas hm k E hE hfail hk
      k 0 db0 (by omega) (by omega)
    simp only [Nat.mul_zero, List.drop_zero, Nat.sub_zero, h0, List.map_nil,
      List.nil_append] at hz
    exact hz
  refine ⟨h1, ?_⟩
  have hcnt1 : get_indexed_count (index_document embed1 db0 doc chunks metas) doc
      = BATCH * k := by
    have h2 := congrArg List.length h1
    simp only [List.length_map, List.length_take] at h2
    simp only [get_indexed_count]
    omega
  obtain ⟨D, hD⟩ : ∃ D, index_document embed1 db0 doc chunks metas = D := ⟨_, rfl⟩
  rw [hD] at h1 hcnt1 ⊢
  have hrun2 : index_document embed2 D doc chunks metas
      = indexLoop embed2 doc chunks metas chunks.length (BATCH * k) D := by
    unfold index_document
    rw [hcnt1, if_neg (by omega)]
  rw [hrun2, indexLoop_texts embed2 doc chunks metas (BATCH * k) _ hm hgood2, h1,
    List.take_append_drop]

/-- A 65-chunk document: one full batch of 64 plus one chunk. -/
def chunks65 : List String := List.replicate 65 "x"

/-- Metadata for the 65-chunk document, with the global chunk index as
built by index_pdfs (indexer.py line 194). -/
def metas65 : List Meta := (List.range 65).map (fun i => build_metadata "d.pdf" i 0)

/-- An embedding oracle that succeeds on the call at chunk offset 0 and
fails on every later call. -/
def embedFail65 : ℕ → List String → Option (List Emb) :=
  fun i ts => if i = 0 then some (ts.map (fun _ => [])) else none

/-- The vectors embedFail65 returns for batch j. -/
def emb65 : ℕ → List Emb :=
  fun j => ((chunks65.drop (BATCH * j)).take BATCH).map (fun _ => [])

/-- C3 witness: the 65-chunk document, provider failing on batch 1. -/
theorem index_pdfs_partial_failure_witness :
    (docRows (index_document embedFail65 [] "d.pdf" chunks65 metas65) "d.pdf").map Row.text
      = chunks65.take (BATCH * 1)
    ∧ (docRows (index_document embedTriv
          (index_document embedFail65 [] "d.pdf" chunks65 metas65)
          "d.pdf" chunks65 metas65) "d.pdf").map Row.text
      = chunks65 := by
  refine index_pdfs_partial_failure embedFail65 embedTriv [] "d.pdf" chunks65 metas65
    1 emb65 (by simp [metas65, chunks65]) rfl (by decide) ?_ ?_
    (fun j ts => ⟨ts.map (fun _ => []), rfl, by simp⟩)
  · intro j hj
    have hj0 : j = 0 := by omega
    subst hj0
    exact ⟨rfl, by simp [emb65]⟩
  · rfl

/-- C7: add_many with mismatched input lengths raises the assertion
error and leaves the table unchanged. -/
theorem add_many_mismatch (db : List Row) (doc : String) (chunks : List String)
    (metas : List Meta) (embs : List Emb)
    (h : ¬(chunks.length = metas.length ∧ metas.length = embs.length)) :
    add_many db doc chunks metas embs = Except.error "AssertionError"
    ∧ runAddMany db doc chunks metas embs = db := by
  have he : add_many db doc chunks metas embs = Except.error "AssertionError" := by
    unfold add_many
    rw [if_neg h]
  refine ⟨he, ?_⟩
  unfold runAddMany
  rw [he]

/-- C7 witness: one chunk, no metadata, no embedding. -/
theorem add_many_mismatch_witness :
    add_many [] "a.pdf" ["x"] [] [] = Except.error "AssertionError"
    ∧ runAddMany [] "a.pdf" ["x"] [] [] = [] :=
  add_many_mismatch [] "a.pdf" ["x"] [] [] (by decide)

/-- C9: a single add_many call with n chunks stores rows whose chunk_id
values are exactly 0..n-1, the positions within this call's batch,
whatever the table already holds for the same doc_id. -/
theorem add_many_batch_chunk_ids (db : List Row) (doc : String)
    (chunks : List String) (metas : List Meta) (embs : List Emb)
    (h1 : chunks.length = metas.length) (h2 : metas.length = embs.length) :
    add_many db doc chunks metas embs
      = Except.ok (db ++ mkRows doc chunks metas embs)
    ∧ (mkRows doc chunks metas embs).map Row.chunk_id = List.range chunks.length := by
  refine ⟨add_many_ok db doc chunks metas embs h1 h2, ?_⟩
  rw [mkRows_map_chunk_id]
  congr 1
  rw [List.length_zip, List.length_zip]
  omega

/-- C9 witness: a two-chunk batch added to a table that already holds a
row with the same doc_id; the new rows still get chunk_id 0 and 1. -/
theorem add_many_batch_chunk_ids_witness :
    add_many [⟨"a.pdf", 0, "hello", build_metadata "a.pdf" 0 0, []⟩] "a.pdf" ["y", "z"]
        [build_metadata "a.pdf" 0 0, build_metadata "a.pdf" 1 0] [[], []]
      = Except.ok ([⟨"a.pdf", 0, "hello", build_metadata "a.pdf" 0 0, []⟩]
          ++ mkRows "a.pdf" ["y", "z"]
              [build_metadata "a.pdf" 0 0, build_metadata "a.pdf" 1 0] [[], []])
    ∧ (mkRows "a.pdf" ["y", "z"]
          [build_metadata "a.pdf" 0 0, build_metadata "a.pdf" 1 0] [[], []]).map
        Row.chunk_id = List.range (List.length ["y", "z"]) :=
  add_many_batch_chunk_ids _ "a.pdf" _ _ _ rfl rfl

/-- C1 exhibit: indexing a fresh 65-chunk document with a provider that
never fails stores 65 rows for the document, but the chunk_id column
reads 0..63 followed by 0 instead of the contiguous 0..64, because
add_many restarts its enumerate at 0 on every batch. -/
theorem chunk_ids_not_contiguous :
    (docRows (index_document embedTriv [] "d.pdf" chunks65 metas65) "d.pdf").map
        Row.chunk_id
      = List.range 64 ++ [0]
    ∧ (docRows (index_document embedTriv [] "d.pdf" chunks65 metas65) "d.pdf").length = 65
    ∧ List.range 64 ++ [0] ≠ List.range 65 := by
  have hc0 : get_indexed_count [] "d.pdf" = 0 := rfl
  have hrun : index_document embedTriv [] "d.pdf" chunks65 metas65
      = indexLoop embedTriv "d.pdf" chunks65 metas65 chunks65.length 0 [] := by
    unfold index_document
    rw [hc0, if_neg (by simp [chunks65])]
  have hA1 : ((chunks65.drop 0).take BATCH).length
      = ((metas65.drop 0).take BATCH).length := by
    simp [chunks65, metas65]
  have hB1 : ((metas65.drop 0).take BATCH).length
      = (((chunks65.drop 0).take BATCH).map (fun _ => ([] : Emb))).length := by
    simp [chunks65, metas65]
  have hA2 : ((chunks65.drop (0 + BATCH)).take BATCH).length
      = ((metas65.drop (0 + BATCH)).take BATCH).length := by
    simp [chunks65, metas65]
  have hB2 : ((metas65.drop (0 + BATCH)).take BATCH).length
      = (((chunks65.drop (0 + BATCH)).take BATCH).map (fun _ => ([] : Emb))).length := by
    simp [chunks65, metas65]
  have hL : indexLoop embedTriv "d.pdf" chunks65 metas65 chunks65.length 0 []
      = [] ++ mkRows "d.pdf" ((chunks65.drop 0).take BATCH) ((metas65.drop 0).take BATCH)
            (((chunks65.drop 0).take BATCH).map (fun _ => []))
          ++ mkRows "d.pdf" ((chunks65.drop (0 + BATCH)).take BATCH)
            ((metas65.drop (0 + BATCH)).take BATCH)
            (((chunks65.drop (0 + BATCH)).take BATCH).map (fun _ => [])) := by
    rw [indexLoop, dif_pos (by simp [chunks65])]
    simp only [embedTriv]
    simp only [add_many_ok _ _ _ _ _ hA1 hB1]
    rw [indexLoop, dif_pos (by simp [chunks65, BATCH])]
    simp only [embedTriv]
    simp only [add_many_ok _ _ _ _ _ hA2 hB2]
    rw [indexLoop, dif_neg (by simp [chunks65, BATCH])]
  have h1 : (docRows (index_document embedTriv [] "d.pdf" chunks65 metas65) "d.pdf").map
      Row.chunk_id = List.range 64 ++ [0] := by
    rw [hrun, hL, List.nil_append, docRows_append, docRows_mkRows, docRows_mkRows,
      List.map_append, mkRows_map_chunk_id, mkRows_map_chunk_id]
    simp only [chunks65, metas65, BATCH]
    norm_num
    decide
  refine ⟨h1, ?_, by decide⟩
  have h2 := congrArg List.length h1
  simpa using h2

/-- The whitespace characters removed by Python str.strip. -/
def wsChar (c : Char) : Bool :=
  c == ' ' || c == '\t' || c == '\n' || c == '\r' || c == Char.ofNat 11 || c == Char.ofNat 12

/-- Python str.strip: remove leading and trailing whitespace.  Page text
is modelled as a list of characters. -/
def trim (l : List Char) : List Char :=
  ((l.dropWhile wsChar).reverse.dropWhile wsChar).reverse

/-- The while loop of chunk_text_per_page (indexer.py lines 97-103) over
one page: windows of chunk_size characters taken every step characters
from position i on, each trimmed, empty results dropped.  The loop
advances by the positive step, which is what makes it terminate. -/
def chunkFrom (text : List Char) (chunk_size step : ℕ) (hstep : 0 < step)
    (i : ℕ) : List (List Char) :=
  if h : i < text.length then
    (if trim ((text.drop i).take chunk_size) = [] then []
     else [trim ((text.drop i).take chunk_size)])
      ++ chunkFrom text chunk_size step hstep (i + step)
  else []
termination_by text.length - i
decreasing_by omega

/-- rag.indexer.chunk_text_per_page (indexer.py lines 83-105): chunk each
page with character windows of max_tokens * 4 characters advancing by
max 1 (max_tokens * 4 - overlap * 4); returns the chunks and, in
lockstep, the source page index of each chunk. -/
def chunk_text_per_page (page_texts : List (List Char)) (max_tokens overlap : ℕ) :
    List (List Char) × List ℕ :=
  ((page_texts.enum.map (fun pt =>
      if pt.2 = [] then []
      else chunkFrom pt.2 (max_tokens * 4) (max 1 (max_tokens * 4 - overlap * 4))
        (Nat.lt_of_lt_of_le Nat.one_pos (Nat.le_max_left 1 _)) 0)).join,
   (page_texts.enum.map (fun pt =>
      if pt.2 = [] then []
      else (chunkFrom pt.2 (max_tokens * 4) (max 1 (max_tokens * 4 - overlap * 4))
        (Nat.lt_of_lt_of_le Nat.one_pos (Nat.le_max_left 1 _)) 0).map
          (fun _ => pt.1))).join)

/-- Ceiling-division step identity used to count the windows of the
chunking loop. -/
theorem ceil_div_step (d step : ℕ) (hstep : 0 < step) (hd : 0 < d) :
    (d + step - 1) / step = (d - step + step - 1) / step + 1 := by
  by_cases hds : d ≤ step
  · have h1 : d - step = 0 := by omega
    rw [h1]
    have h2 : (0 + step - 1) / step = 0 := Nat.div_eq_of_lt (by omega)
    rw [h2]
    have h3 : d + step - 1 = (d - 1) + step := by omega
    rw [h3, Nat.add_div_right _ hstep]
    have h4 : (d - 1) / step = 0 := Nat.div_eq_of_lt (by omega)
    omega
  · have h3 : d + step - 1 = (d - step + step - 1) + step := by omega
    rw [h3, Nat.add_div_right _ hstep]

/-- The chunking loop from position i emits exactly the trimmed windows
at positions i, i + step, i + 2 * step, ... below the text length, with
the empty ones filtered out. -/
theorem chunkFrom_eq (text : List Char) (size step : ℕ) (hstep : 0 < step) :
    ∀ n i, text.length - i ≤ n →
      chunkFrom text size step hstep i
        = ((List.range' i ((text.length - i + step - 1) / step) step).map
            (fun p => trim ((text.drop p).take size))).filter (fun c => c ≠ []) := by
  intro n
  induction n with
  | zero =>
    intro i hn
    rw [chunkFrom, dif_neg (by omega)]
    have hcnt : (text.length - i + step - 1) / step = 0 := Nat.div_eq_of_lt (by omega)
    rw [hcnt]
    rfl
  | succ n ih =>
    intro i hn
    by_cases hi : i < text.length
    · rw [chunkFrom, dif_pos hi]
      have hkey := ceil_div_step (text.length - i) step hstep (by omega)
      have hm2 : (text.length - (i + step) + step - 1) / step
          = (text.length - i - step + step - 1) / step := by
        have e : text.length - (i + step) = text.length - i - step := by omega
        rw [e]
      obtain ⟨m, hm⟩ : ∃ m, (text.length - i + step - 1) / step = m + 1 :=
        ⟨(text.length - i - step + step - 1) / step, hkey⟩
      rw [hm, List.range'_succ, List.map_cons]
      have hrec := ih (i + step) (by omega)
      have hmm : (text.length - (i + step) + step - 1) / step = m := by
        rw [hm2]
        omega
      rw [hrec, hmm]
      by_cases hc : trim ((text.drop i).take size) = []
      · rw [if_pos hc, List.filter_cons]
        simp only [hc]
        rw [if_neg (by simp)]
        rw [List.nil_append]
      · rw [if_neg hc, List.filter_cons, if_pos (by simp [hc])]
        rfl
    · rw [chunkFrom, dif_neg hi]
      have hcnt : (text.length - i + step - 1) / step = 0 := Nat.div_eq_of_lt (by omega)
      rw [hcnt]
      rfl

/-- Mapping a function of the element over an enumerated list forgets
the indices. -/
theorem enum_map_snd_fun {α β : Type} (F : α → β) (l : List α) :
    ∀ n, (l.enumFrom n).map (fun pt => F pt.2) = l.map F := by
  induction l with
  | nil => intro n; rfl
  | cons a as ih =>
    intro n
    rw [List.enumFrom_cons, List.map_cons, List.map_cons, ih]

/-- C8: the chunker emits, per page in order, the trimmed windows
text[i : i + max_tokens * 4] taken at positions 0, step, 2 * step, ...
with step = max 1 (max_tokens * 4 - overlap * 4); windows that are empty
after trimming are dropped, every emitted chunk is non-empty, and the
step is floored at 1 (which is what makes the loop terminate on every
input). -/
theorem chunk_text_per_page_windows (pages : List (List Char)) (max_tokens overlap : ℕ) :
    (chunk_text_per_page pages max_tokens overlap).1
      = (pages.map (fun t =>
          ((List.range' 0 ((t.length + max 1 (max_tokens * 4 - overlap * 4) - 1)
                / max 1 (max_tokens * 4 - overlap * 4))
              (max 1 (max_tokens * 4 - overlap * 4))).map
            (fun i => trim ((t.drop i).take (max_tokens * 4)))).filter
            (fun c => c ≠ []))).join
    ∧ ((chunk_text_per_page pages max_tokens overlap).1).Forall (fun c => c ≠ [])
    ∧ 1 ≤ max 1 (max_tokens * 4 - overlap * 4) := by
  have hstep : 0 < max 1 (max_tokens * 4 - overlap * 4) :=
    Nat.lt_of_lt_of_le Nat.one_pos (Nat.le_max_left 1 _)
  have hpage : ∀ t : List Char,
      (if t = [] then []
       else chunkFrom t (max_tokens * 4) (max 1 (max_tokens * 4 - overlap * 4))
         (Nat.lt_of_lt_of_le Nat.one_pos (Nat.le_max_left 1 _)) 0)
      = ((List.range' 0 ((t.length + max 1 (max_tokens * 4 - overlap * 4) - 1)
            / max 1 (max_tokens * 4 - overlap * 4))
          (max 1 (max_tokens * 4 - overlap * 4))).map
        (fun i => trim ((t.drop i).take (max_tokens * 4)))).filter
        (fun c => c ≠ []) := by
    intro t
    by_cases ht : t = []
    · subst ht
      rw [if_pos rfl]
      have h0 : ((List.length ([] : List Char)) + max 1 (max_tokens * 4 - overlap * 4) - 1)
          / max 1 (max_tokens * 4 - overlap * 4) = 0 := Nat.div_eq_of_lt (by simp; omega)
      rw [h0]
      rfl
    · rw [if_neg ht]
      have h := chunkFrom_eq t (max_tokens * 4) (max 1 (max_tokens * 4 - overlap * 4))
        (Nat.lt_of_lt_of_le Nat.one_pos (Nat.le_max_left 1 _)) t.length 0 (by omega)
      rw [h]
      rw [Nat.sub_zero]
  have hfst : (chunk_text_per_page pages max_tokens overlap).1
      = (pages.map (fun t =>
          ((List.range' 0 ((t.length + max 1 (max_tokens * 4 - overlap * 4) - 1)
                / max 1 (max_tokens * 4 - overlap * 4))
              (max 1 (max_tokens * 4 - overlap * 4))).map
            (fun i => trim ((t.drop i).take (max_tokens * 4)))).filter
            (fun c => c ≠ []))).join := by
    unfold chunk_text_per_page
    simp only []
    rw [funext (fun pt : ℕ × List Char => hpage pt.2), List.enum_eq_enumFrom,
      enum_map_snd_fun (fun t : List Char =>
        ((List.range' 0 ((t.length + max 1 (max_tokens * 4 - overlap * 4) - 1)
              / max 1 (max_tokens * 4 - overlap * 4))
            (max 1 (max_tokens * 4 - overlap * 4))).map
          (fun i => trim ((t.drop i).take (max_tokens * 4)))).filter
          (fun c => c ≠ [])) pages 0]
  refine ⟨hfst, ?_, Nat.le_max_left 1 _⟩
  rw [List.forall_iff_forall_mem]
  intro c hc
  rw [hfst] at hc
  rw [List.mem_join] at hc
  obtain ⟨l, hl, hcl⟩ := hc
  rw [List.mem_map] at hl
  obtain ⟨t, _, rfl⟩ := hl
  have := List.of_mem_filter hcl
  simpa using this

/-- One stored record as read back by VectorStore.all (vector_store.py
lines 72-92): rowid, doc_id, chunk_id, text, metadata and embedding, in
insertion order.  Embedding coordinates are modelled as real numbers
(the Python floats). -/
structure SRecord where
  rid : ℕ
  doc_id : String
  chunk_id : ℕ
  text : String
  meta : Meta
  emb : List ℝ

/-- Round to the nearest integer, ties to even. -/
noncomputable def roundEven (y : ℝ) : ℤ :=
  if Int.fract y = 1 / 2 then (if 2 ∣ ⌊y⌋ then ⌊y⌋ else ⌊y⌋ + 1) else round y

/-- Round a real number to the nearest IEEE 754 binary32 value: 24-bit
significand, round to nearest, ties to even.  The model keeps the
exponent unbounded; every value arising in the traced computations lies
well inside the normal float32 range, far from overflow and from the
subnormal threshold. -/
noncomputable def fl32 (x : ℝ) : ℝ :=
  if x = 0 then 0
  else (roundEven (x / 2 ^ (⌊Real.logb 2 |x|⌋ - 23)) : ℝ)
    * 2 ^ (⌊Real.logb 2 |x|⌋ - 23)

/-- float32 square root: np.sqrt on a float32 input returns the
correctly rounded square root. -/
noncomputable def sqrt32 (x : ℝ) : ℝ := fl32 (Real.sqrt x)

/-- The 1e-12 guard added to the denominator (vector_store.py line 109).
The model uses the exact value; the float64 value of the Python literal
differs from it by under 1e-28, which changes nothing after rounding the
sum to float32. -/
noncomputable def eps12 : ℝ := 1 / 10 ^ 12

/-- float32 dot product of a stored row with the query (one entry of
matrix @ query, vector_store.py line 110): elementwise products and a
running sum, each rounded to float32.  The accumulation is sequential
from an exact 0.0; for the short vectors in the claims every partial
result is exactly representable, so the library's accumulation order is
immaterial. -/
noncomputable def dot32 (a bv : List ℝ) : ℝ :=
  (List.zipWith (fun x y => fl32 (x * y)) a bv).foldl (fun acc v => fl32 (acc + v)) 0

/-- float32 Euclidean norm, np.linalg.norm on a float32 vector
(vector_store.py line 109): square root of the float32 sum of squares. -/
noncomputable def norm32 (a : List ℝ) : ℝ :=
  sqrt32 ((a.map (fun x => fl32 (x * x))).foldl (fun acc v => fl32 (acc + v)) 0)

/-- The score VectorStore.search computes for one row (vector_store.py
lines 109-110) with float32 arithmetic throughout: the arrays are built
with dtype float32 (lines 105-106), np.linalg.norm preserves float32,
and the Python scalar 1e-12 does not promote the dtype, so it is
absorbed by the float32 addition whenever the denominator is not tiny -
its purpose is only the all-zero-vector case. -/
noncomputable def score32 (e q : List ℝ) : ℝ :=
  fl32 (dot32 e q / fl32 (fl32 (norm32 e * norm32 q) + eps12))

/-- Floor of the base-2 logarithm, from power-of-two bounds. -/
theorem floor_logb_eq (x : ℝ) (n : ℤ) (hx : 0 < x)
    (h1 : (2 : ℝ) ^ n ≤ x) (h2 : x < 2 ^ (n + 1)) :
    ⌊Real.logb 2 x⌋ = n := by
  rw [Int.floor_eq_iff]
  constructor
  · rw [Real.le_logb_iff_rpow_le (by norm_num) hx, Real.rpow_intCast]
    exact h1
  · rw [show ((n : ℝ) + 1) = ((n + 1 : ℤ) : ℝ) by push_cast; ring]
    rw [Real.logb_lt_iff_lt_rpow (by norm_num) hx, Real.rpow_intCast]
    exact h2

/-- Computation rule for fl32, from explicit significand bounds: if x
lies in the binade of 24-bit significands scaled by 2 ^ e and within
half a unit of m * 2 ^ e, it rounds to m * 2 ^ e. -/
theorem fl32_eq_of_bounds (x : ℝ) (m e : ℤ) (hx : 0 < x)
    (hb1 : (2 : ℝ) ^ (e + 23) ≤ x) (hb2 : x < 2 ^ (e + 24))
    (hlo : (m : ℝ) - 1 / 2 < x / 2 ^ e) (hhi : x / 2 ^ e < (m : ℝ) + 1 / 2) :
    fl32 x = (m : ℝ) * 2 ^ e := by
  have hlog : ⌊Real.logb 2 |x|⌋ = e + 23 := by
    rw [abs_of_pos hx]
    refine floor_logb_eq x (e + 23) hx hb1 ?_
    rw [show e + 23 + 1 = e + 24 by ring]
    exact hb2
  have hre : roundEven (x / 2 ^ e) = m := by
    unfold roundEven
    by_cases htie : Int.fract (x / 2 ^ e) = 1 / 2
    · exfalso
      have hadd := Int.floor_add_fract (x / 2 ^ e)
      rw [htie] at hadd
      have h1 : (m : ℝ) - 1 < (⌊x / 2 ^ e⌋ : ℝ) := by linarith
      have h2 : (⌊x / 2 ^ e⌋ : ℝ) < (m : ℝ) := by linarith
      have h1i : m - 1 < ⌊x / 2 ^ e⌋ := by exact_mod_cast h1
      have h2i : ⌊x / 2 ^ e⌋ < m := by exact_mod_cast h2
      omega
    · rw [if_neg htie, round_eq, Int.floor_eq_iff]
      constructor
      · linarith
      · push_cast
        linarith
  unfold fl32
  rw [if_neg (ne_of_gt hx), hlog]
  rw [show e + 23 - 23 = e by ring]
  rw [hre]

/-- fl32 of zero. -/
theorem fl32_zero : fl32 0 = 0 := by
  unfold fl32
  rw [if_pos rfl]

/-- Order on scored records: a comes before b when b's score is at most
a's (descending by score).  np.argsort on the negated scores realizes
this order; the relative order of records with equal scores is not
specified by the source (numpy's default sort is not stable), so any
total refinement of the strict order models it. -/
def scoreGe (a b : SRecord × ℝ) : Prop := b.2 ≤ a.2

noncomputable instance : DecidableRel scoreGe :=
  fun a b => Real.decidableLE b.2 a.2

instance : IsTotal (SRecord × ℝ) scoreGe := ⟨fun a b => le_total b.2 a.2⟩

instance : IsTrans (SRecord × ℝ) scoreGe :=
  ⟨fun _ _ _ hab hbc => le_trans hbc hab⟩

/-- VectorStore.search (vector_store.py lines 94-127): an empty store
returns the empty list; otherwise score every stored row by the float32
cosine similarity against the query, order the rows by descending score
and return the first top_k, each paired with its score. -/
noncomputable def search (rows : List SRecord) (q : List ℝ) (top_k : ℕ) :
    List (SRecord × ℝ) :=
  match rows with
  | [] => []
  | _ :: _ =>
    (List.insertionSort scoreGe (rows.map (fun r => (r, score32 r.emb q)))).take top_k

/-- search returns min top_k N results. -/
theorem search_length (rows : List SRecord) (q : List ℝ) (k : ℕ) :
    (search rows q k).length = min k rows.length := by
  cases rows with
  | nil => simp [search]
  | cons a as =>
    unfold search
    rw [List.length_take, List.length_insertionSort, List.length_map]

/-- search output is sorted by descending score. -/
theorem search_sorted (rows : List SRecord) (q : List ℝ) (k : ℕ) :
    List.Sorted scoreGe (search rows q k) := by
  cases rows with
  | nil => simp [search]
  | cons a as =>
    unfold search
    exact List.Pairwise.sublist (List.take_sublist _ _)
      (List.sorted_insertionSort scoreGe _)

/-- Every score returned by search is the float32 cosine similarity of
the returned record's embedding with the query. -/
theorem search_scores (rows : List SRecord) (q : List ℝ) (k : ℕ) :
    (search rows q k).Forall (fun p => p.2 = score32 p.1.emb q) := by
  rw [List.forall_iff_forall_mem]
  intro p hp
  cases rows with
  | nil => simp [search] at hp
  | cons a as =>
    unfold search at hp
    have hp2 := (List.perm_insertionSort scoreGe _).mem_iff.mp
      (List.mem_of_mem_take hp)
    rw [List.mem_map] at hp2
    obtain ⟨r, _, rfl⟩ := hp2
    rfl

/-- When top_k covers the whole store, search returns every record. -/
theorem search_perm_all (rows : List SRecord) (q : List ℝ) (k : ℕ)
    (h : rows.length ≤ k) :
    ((search rows q k).map Prod.fst).Perm rows := by
  cases rows with
  | nil => simp [search]
  | cons a as =>
    unfold search
    rw [List.take_of_length_le (by rw [List.length_insertionSort, List.length_map]; exact h)]
    have hperm := (List.perm_insertionSort scoreGe
      ((a :: as).map (fun r => (r, score32 r.emb q)))).map Prod.fst
    have hcomp : (Prod.fst ∘ fun r : SRecord => (r, score32 r.emb q)) = id := rfl
    rw [List.map_map, hcomp, List.map_id] at hperm
    exact hperm

/-- C6: search returns exactly min top_k N records: the empty store gives
the empty list whatever top_k is, and a top_k at least the store size
returns all records, fully ranked, with no padding and no error. -/
theorem search_result_count (rows : List SRecord) (q : List ℝ) (k : ℕ) :
    (search rows q k).length = min k rows.length
    ∧ (rows = [] → search rows q k = [])
    ∧ (rows.length ≤ k →
        ((search rows q k).map Prod.fst).Perm rows
        ∧ List.Sorted scoreGe (search rows q k)) := by
  refine ⟨search_length rows q k, ?_, ?_⟩
  · intro h
    subst h
    rfl
  · intro h
    exact ⟨search_perm_all rows q k h, search_sorted rows q k⟩

/-- C6 witness: the empty store, query of dimension one, top_k of 5. -/
theorem search_result_count_witness :
    search ([] : List SRecord) [(1 : ℝ)] 5 = []
    ∧ (search ([] : List SRecord) [(1 : ℝ)] 5).length
      = min 5 (List.length ([] : List SRecord))
    ∧ ((search ([] : List SRecord) [(1 : ℝ)] 5).map Prod.fst).Perm
        ([] : List SRecord) :=
  ⟨(search_result_count [] [(1 : ℝ)] 5).2.1 rfl,
   (search_result_count [] [(1 : ℝ)] 5).1,
   ((search_result_count [] [(1 : ℝ)] 5).2.2 (by simp)).1⟩

/-- C10: search with top_k zero returns the empty list on every store,
even though the contract only covers positive top_k and the HTTP layer
passes the caller's top_k through unchecked. -/
theorem search_topk_zero (rows : List SRecord) (q : List ℝ) :
    search rows q 0 = [] := by
  cases rows with
  | nil => rfl
  | cons a as =>
    unfold search
    rw [List.take_zero]

/-- Metadata for the demo records. -/
def metaDemo : Meta := build_metadata "demo.pdf" 0 0

/-- First demo record, embedding [1, 0]. -/
noncomputable def demo0 : SRecord := ⟨1, "demo.pdf", 0, "t0", metaDemo, [1, 0]⟩

/-- Second demo record, embedding [0, 1]. -/
noncomputable def demo1 : SRecord := ⟨2, "demo.pdf", 1, "t1", metaDemo, [0, 1]⟩

/-- Third demo record, embedding [1, 1]. -/
noncomputable def demo2 : SRecord := ⟨3, "demo.pdf", 2, "t2", metaDemo, [1, 1]⟩

/-- fl32 fixes 1. -/
theorem fl32_one : fl32 1 = 1 := by
  have h := fl32_eq_of_bounds 1 8388608 (-23) one_pos (by norm_num) (by norm_num)
    (by norm_num) (by norm_num)
  rw [h]
  norm_num

/-- fl32 fixes 2. -/
theorem fl32_two : fl32 2 = 2 := by
  have h := fl32_eq_of_bounds 2 8388608 (-22) two_pos (by norm_num) (by norm_num)
    (by norm_num) (by norm_num)
  rw [h]
  norm_num

/-- The float32 value of the square root of two: the square root of two
correctly rounded to 24 bits of significand. -/
theorem fl32_sqrt_two : fl32 (Real.sqrt 2) = 11863283 / 8388608 := by
  have hpos : (0 : ℝ) < Real.sqrt 2 := Real.sqrt_pos.mpr (by norm_num)
  have hlo : (23726565 : ℝ) / 16777216 < Real.sqrt 2 :=
    (Real.lt_sqrt (by positivity)).mpr (by norm_num)
  have hhi : Real.sqrt 2 < (23726567 : ℝ) / 16777216 :=
    (Real.sqrt_lt' (by positivity)).mpr (by norm_num)
  have hdiv : Real.sqrt 2 / (2 : ℝ) ^ (-23 : ℤ) = Real.sqrt 2 * 8388608 := by
    rw [show ((2 : ℝ) ^ (-23 : ℤ)) = ((8388608 : ℝ))⁻¹ by norm_num, div_eq_mul_inv,
      inv_inv]
  have h := fl32_eq_of_bounds (Real.sqrt 2) 11863283 (-23) hpos
    (by norm_num <;> linarith) (by norm_num <;> linarith)
    (by rw [hdiv]; push_cast; linarith) (by rw [hdiv]; push_cast; linarith)
  rw [h]
  norm_num

/-- The float32 value of the square root of two is itself a float32
value: fl32 fixes it. -/
theorem fl32_b : fl32 ((11863283 : ℝ) / 8388608) = 11863283 / 8388608 := by
  have h := fl32_eq_of_bounds ((11863283 : ℝ) / 8388608) 11863283 (-23)
    (by norm_num) (by norm_num) (by norm_num) (by norm_num) (by norm_num)
  rw [h]
  norm_num

/-- Adding the 1e-12 guard to the float32 value 1.0 is absorbed by the
float32 rounding: the result is still exactly 1.0. -/
theorem fl32_one_add_eps : fl32 (1 + eps12) = 1 := by
  unfold eps12
  have h := fl32_eq_of_bounds (1 + 1 / 10 ^ 12) 8388608 (-23) (by norm_num)
    (by norm_num) (by norm_num) (by norm_num) (by norm_num)
  rw [h]
  norm_num

/-- Adding the 1e-12 guard to the float32 square root of two is likewise
absorbed. -/
theorem fl32_b_add_eps :
    fl32 ((11863283 : ℝ) / 8388608 + eps12) = 11863283 / 8388608 := by
  unfold eps12
  have h := fl32_eq_of_bounds ((11863283 : ℝ) / 8388608 + 1 / 10 ^ 12) 11863283 (-23)
    (by norm_num) (by norm_num) (by norm_num) (by norm_num) (by norm_num)
  rw [h]
  norm_num

/-- The float32 quotient of 1.0 by the float32 square root of two. -/
theorem fl32_inv_b :
    fl32 ((8388608 : ℝ) / 11863283) = 11863283 / 16777216 := by
  have h := fl32_eq_of_bounds ((8388608 : ℝ) / 11863283) 11863283 (-24)
    (by norm_num) (by norm_num) (by norm_num) (by norm_num) (by norm_num)
  rw [h]
  norm_num

/-- float32 square root of 1.0. -/
theorem sqrt32_one : sqrt32 1 = 1 := by
  unfold sqrt32
  rw [Real.sqrt_one, fl32_one]

/-- float32 square root of 2.0. -/
theorem sqrt32_two : sqrt32 2 = 11863283 / 8388608 := by
  unfold sqrt32
  exact fl32_sqrt_two

/-- The score of the [1, 0] record against the query [1, 0] is exactly
1.0: numerator and denominator both come out exactly 1.0 in float32, the
1e-12 being absorbed. -/
theorem score32_demo0 : score32 demo0.emb [(1 : ℝ), 0] = 1 := by
  show score32 [(1 : ℝ), 0] [(1 : ℝ), 0] = 1
  unfold score32
  have hdot : dot32 [(1 : ℝ), 0] [(1 : ℝ), 0] = 1 := by
    unfold dot32
    norm_num [fl32_zero, fl32_one]
  have hn : norm32 [(1 : ℝ), 0] = 1 := by
    unfold norm32
    norm_num [fl32_zero, fl32_one, sqrt32_one]
  rw [hdot, hn, mul_one, fl32_one, fl32_one_add_eps]
  rw [div_one, fl32_one]

/-- The score of the [0, 1] record against the query [1, 0] is exactly
0.0. -/
theorem score32_demo1 : score32 demo1.emb [(1 : ℝ), 0] = 0 := by
  show score32 [(0 : ℝ), 1] [(1 : ℝ), 0] = 0
  unfold score32
  have hdot : dot32 [(0 : ℝ), 1] [(1 : ℝ), 0] = 0 := by
    unfold dot32
    norm_num [fl32_zero]
  have hn1 : norm32 [(0 : ℝ), 1] = 1 := by
    unfold norm32
    norm_num [fl32_zero, fl32_one, sqrt32_one]
  have hn2 : norm32 [(1 : ℝ), 0] = 1 := by
    unfold norm32
    norm_num [fl32_zero, fl32_one, sqrt32_one]
  rw [hdot, hn1, hn2, mul_one, fl32_one, fl32_one_add_eps]
  rw [div_one, fl32_zero]

/-- The score of the [1, 1] record against the query [1, 0]:
1.0 divided by the float32 square root of two, in float32 - that is,
11863283 / 16777216, approximately 0.70710677. -/
theorem score32_demo2 : score32 demo2.emb [(1 : ℝ), 0] = 11863283 / 16777216 := by
  show score32 [(1 : ℝ), 1] [(1 : ℝ), 0] = 11863283 / 16777216
  unfold score32
  have hdot : dot32 [(1 : ℝ), 1] [(1 : ℝ), 0] = 1 := by
    unfold dot32
    norm_num [fl32_zero, fl32_one]
  have hn1 : norm32 [(1 : ℝ), 1] = 11863283 / 8388608 := by
    unfold norm32
    norm_num [fl32_one, fl32_two, sqrt32_two]
  have hn2 : norm32 [(1 : ℝ), 0] = 1 := by
    unfold norm32
    norm_num [fl32_zero, fl32_one, sqrt32_one]
  rw [hdot, hn1, hn2, mul_one, fl32_b, fl32_b_add_eps]
  rw [show (1 : ℝ) / (11863283 / 8388608) = 8388608 / 11863283 by norm_num]
  exact fl32_inv_b

/-- Evaluation of search on the demo store, in float32 arithmetic. -/
theorem search_demo_eq :
    search [demo0, demo1, demo2] [(1 : ℝ), 0] 2
      = [(demo0, 1), (demo2, 11863283 / 16777216)] := by
  have hs2pos : (0 : ℝ) < 11863283 / 16777216 := by norm_num
  have hs2le : (11863283 : ℝ) / 16777216 ≤ 1 := by norm_num
  show (List.insertionSort scoreGe
      ([demo0, demo1, demo2].map (fun r => (r, score32 r.emb [(1 : ℝ), 0])))).take 2 = _
  rw [List.map_cons, List.map_cons, List.map_cons, List.map_nil,
    score32_demo0, score32_demo1, score32_demo2]
  simp only [List.insertionSort]
  rw [List.orderedInsert_nil]
  simp only [List.orderedInsert]
  rw [if_neg (show ¬ scoreGe (demo1, (0 : ℝ)) (demo2, 11863283 / 16777216) from
    not_le.mpr hs2pos)]
  simp only [List.orderedInsert]
  rw [if_pos (show scoreGe (demo0, (1 : ℝ)) (demo2, 11863283 / 16777216) from hs2le)]
  rfl

/-- C4: search scores each stored record by
dot(embedding, query) / (norm(embedding) * norm(query) + 1e-12) in the
program's float32 arithmetic and returns records in descending order of
that score; for the store [1,0], [0,1], [1,1] and query [1,0] with
top_k = 2 it returns the [1,0] record first with score exactly 1.0 (the
float32 addition absorbs the 1e-12), then [1,1] with score
11863283 / 16777216, approximately 0.707, and excludes [0,1]. -/
theorem search_cosine_ranking :
    (∀ rows : List SRecord, ∀ q : List ℝ, ∀ k : ℕ,
      (search rows q k).Forall (fun p => p.2 = score32 p.1.emb q))
    ∧ (∀ rows : List SRecord, ∀ q : List ℝ, ∀ k : ℕ,
        List.Sorted scoreGe (search rows q k))
    ∧ search [demo0, demo1, demo2] [(1 : ℝ), 0] 2
        = [(demo0, 1), (demo2, 11863283 / 16777216)]
    ∧ (0.707 : ℝ) ≤ 11863283 / 16777216
    ∧ (11863283 : ℝ) / 16777216 ≤ 0.708 :=
  ⟨search_scores, search_sorted, search_demo_eq, by norm_num, by norm_num⟩

end SciRag
